import Mathlib

/-!
Verification of the changelog-section extraction script
(scripts/get_changelog.py of GooglePhotosTakeoutHelper).

The script is embedded shallowly over lists of characters:

 - parseVersion models raw = args.version.strip().lstrip('v') followed by
   re.fullmatch of three dot-separated digit groups with an optional
   hyphen-separated suffix of letters, digits, dot, plus, hyphen;
 - findSection models building the heading regular expression, searching
   the document, and slicing from the match end to the next heading line;
 - runExtract models the whole pipeline including the not-found diagnostic
   (the first 20 generic version headings) and the exit status.

Character classes are modelled over the ASCII range, which covers every
input the script's documented surface deals in.
-/

namespace Changelog

/-- Whitespace characters, as the regex class backslash-s and str.strip
    recognise them on ASCII text. -/
def isSpaceChar (c : Char) : Bool :=
  c == ' ' || c == '\t' || c == '\n' || c == '\r' || c == '\x0b' || c == '\x0c'

/-- Characters allowed in a version suffix: the class A-Z a-z 0-9 dot plus hyphen. -/
def isSuffixChar (c : Char) : Bool :=
  c.isAlpha || c.isDigit || c == '.' || c == '+' || c == '-'

/-- Left part of Python's str.strip(): drop leading whitespace. -/
def pyStripLeft (l : List Char) : List Char := l.dropWhile isSpaceChar

/-- Right part of Python's str.strip(): drop trailing whitespace. -/
def pyStripRight (l : List Char) : List Char := (l.reverse.dropWhile isSpaceChar).reverse

/-- Python's str.strip(): drop whitespace at both ends. -/
def pyStrip (l : List Char) : List Char := pyStripRight (pyStripLeft l)

/-- Python's str.lstrip with argument the single character v: drops every
    leading lowercase v (and only lowercase). -/
def lstripV (l : List Char) : List Char := l.dropWhile (· == 'v')

/-- A parsed version: the base (the three dot-separated digit groups, kept as
    the literal character list) and the optional suffix. -/
structure VersionSpec where
  base : List Char
  suffix : Option (List Char)
deriving DecidableEq

/-- Match the base pattern (digits, dot, digits, dot, digits) greedily at the
    front of the input; return the matched characters and the remainder.
    Greedy matching is exact here because a digit run can never be shortened
    usefully (the following regex item is a literal dot). -/
def parseBase (l : List Char) : Option (List Char × List Char) :=
  let a1 := l.takeWhile Char.isDigit
  let s1 := l.dropWhile Char.isDigit
  if a1.isEmpty then none else
  if s1.head? = some '.' then
    let r1 := s1.tail
    let a2 := r1.takeWhile Char.isDigit
    let s2 := r1.dropWhile Char.isDigit
    if a2.isEmpty then none else
    if s2.head? = some '.' then
      let r2 := s2.tail
      let a3 := r2.takeWhile Char.isDigit
      let s3 := r2.dropWhile Char.isDigit
      if a3.isEmpty then none else
      some (a1 ++ '.' :: a2 ++ '.' :: a3, s3)
    else none
  else none

/-- The anchored fullmatch of the version pattern on the already-stripped
    string: base, then either end of input or a hyphen and a nonempty run of
    suffix characters reaching the end of input. -/
def parseVersionRaw (raw : List Char) : Option VersionSpec :=
  match parseBase raw with
  | none => none
  | some (b, rest) =>
    if rest.isEmpty then some ⟨b, none⟩
    else if rest.head? = some '-' then
      let t := rest.tail
      if !t.isEmpty && t.all isSuffixChar then some ⟨b, some t⟩ else none
    else none

/-- The parseVersion operation: strip surrounding whitespace, drop leading
    lowercase v characters, then fullmatch the version pattern. -/
def parseVersion (input : List Char) : Option VersionSpec :=
  parseVersionRaw (lstripV (pyStrip input))

/-- Drop a literal pattern from the front of a list; some remainder on
    success, none when the pattern is not a front segment. -/
def dropPre : List Char → List Char → Option (List Char)
  | [], r => some r
  | _ :: _, [] => none
  | p :: ps, c :: cs => if p = c then dropPre ps cs else none

/-- The lookahead asserting whitespace or end of input, the regex item
    written as a lookahead for backslash-s or end. -/
def lookaheadOK : List Char → Bool
  | [] => true
  | c :: _ => isSpaceChar c

/-- Match the heading regular expression at the current position, given the
    rest of the document from that position.  The pattern is: two hash marks,
    one or more whitespace characters, the literal base and then, when the
    caller supplied a suffix, the literal hyphen-suffix, otherwise an optional
    hyphen followed by a nonempty run of suffix characters; finally the
    lookahead for whitespace or end.  Returns the number of characters the
    match consumes (the match end, relative to this position).  Greedy runs
    are exact because no following item can absorb their characters. -/
def matchHeaderAt (spec : VersionSpec) (l : List Char) : Option Nat :=
  match l with
  | '#' :: '#' :: rest =>
    let ws := rest.takeWhile isSpaceChar
    let r1 := rest.dropWhile isSpaceChar
    if ws.isEmpty then none else
    match dropPre spec.base r1 with
    | none => none
    | some r2 =>
      match spec.suffix with
      | some suf =>
        match dropPre ('-' :: suf) r2 with
        | none => none
        | some r3 =>
          if lookaheadOK r3 then
            some (2 + ws.length + spec.base.length + 1 + suf.length)
          else none
      | none =>
        if r2.head? = some '-' then
          let t := r2.tail
          let run := t.takeWhile isSuffixChar
          if run.isEmpty then none
          else if lookaheadOK (t.dropWhile isSuffixChar) then
            some (2 + ws.length + spec.base.length + 1 + run.length)
          else none
        else if lookaheadOK r2 then some (2 + ws.length + spec.base.length) else none
  | _ => none

/-- Match, at the current position, the pattern used to locate the next
    heading: two hash marks followed by at least one whitespace character. -/
def matchNextAt : List Char → Bool
  | '#' :: '#' :: c :: _ => isSpaceChar c
  | _ => false

/-- The next-heading pattern as a positional matcher (it consumes nothing we
    care about, so the reported length is zero). -/
def matchNextOpt (l : List Char) : Option Nat :=
  if matchNextAt l then some 0 else none

/-- Leftmost-match search of a multiline-anchored pattern: try the matcher at
    every position that starts a line (position zero of the scanned string, or
    any position right after a newline) scanning left to right, and return the
    first hit as (absolute position, consumed length).  The boolean argument
    records whether the current position starts a line. -/
def scanFirst (M : List Char → Option Nat) : Bool → List Char → Option (Nat × Nat)
  | b, [] => if b then (M []).map (fun n => (0, n)) else none
  | b, c :: t =>
    (match (if b then M (c :: t) else none) with
     | some n => some (0, n)
     | none => (scanFirst M (c == '\n') t).map (fun p => (p.1 + 1, p.2)))

/-- Search the whole document for the requested heading (the header_re
    search of the script). -/
def searchHeader (spec : VersionSpec) (text : List Char) : Option (Nat × Nat) :=
  scanFirst (matchHeaderAt spec) true text

/-- Search the remainder of the document for the next heading line (the nxt
    search of the script); returns the match start. -/
def searchNext (l : List Char) : Option Nat :=
  (scanFirst matchNextOpt true l).map Prod.fst

/-- The findSection operation: locate the heading, then slice the document
    from the match end to the start of the next heading line (or to the end
    of the document) and strip surrounding whitespace. -/
def findSection (spec : VersionSpec) (text : List Char) : Option (List Char) :=
  match searchHeader spec text with
  | none => none
  | some (i, n) =>
    let rest := text.drop (i + n)
    let e := match searchNext rest with
      | some j => j
      | none => rest.length
    some (pyStrip (rest.take e))

/-- Match, at the current position, the generic diagnostic pattern: two hash
    marks, whitespace, then three dot-separated digit groups with an optional
    greedy hyphen-suffix (no trailing lookahead in this pattern).  Returns the
    captured version characters and the number of characters consumed by the
    whole match. -/
def matchGenericAt (l : List Char) : Option (List Char × Nat) :=
  match l with
  | '#' :: '#' :: rest =>
    let ws := rest.takeWhile isSpaceChar
    let r1 := rest.dropWhile isSpaceChar
    if ws.isEmpty then none else
    match parseBase r1 with
    | none => none
    | some (b, s3) =>
      if s3.head? = some '-' then
        let t := s3.tail
        let run := t.takeWhile isSuffixChar
        if run.isEmpty then some (b, 2 + ws.length + b.length)
        else some (b ++ '-' :: run, 2 + ws.length + b.length + 1 + run.length)
      else some (b, 2 + ws.length + b.length)
  | _ => none

/-- One pass of re.findall over the document for the generic version-heading
    pattern: collect every non-overlapping leftmost capture, resuming each
    scan at the end of the previous match.  The fuel argument bounds the
    recursion; every step consumes at least one character, so fuel equal to
    the document length plus one is always enough. -/
def findAllAux : Nat → Bool → List Char → List (List Char)
  | 0, _, _ => []
  | fuel + 1, b, l =>
    (if b then matchGenericAt l else none).elim
      (l.casesOn [] (fun c t => findAllAux fuel (c == '\n') t))
      (fun p => p.1 :: findAllAux fuel ((l.take p.2).getLast? == some '\n') (l.drop p.2))

/-- All generic version headings of the document, in document order. -/
def findAll (text : List Char) : List (List Char) :=
  findAllAux (text.length + 1) true text

/-- The diagnostic written to the error stream when no heading matches, with
    the available versions (already truncated by the caller) joined by a
    comma and a space. -/
def notFoundMsg (raw fileName : List Char) (found : List (List Char)) : List Char :=
  "Version \"".toList ++ raw ++ "\" not found in ".toList ++ fileName ++ ".\n".toList
    ++ "Available: ".toList ++ List.intercalate ", ".toList found ++ "\n".toList

/-- Observable outcome of one invocation of the script: the printed section
    (with the trailing newline print appends), the not-found diagnostic on
    the error stream, or the uncaught invalid-version error. -/
inductive Outcome where
  | success (stdout : List Char)
  | versionNotFound (stderrMsg : List Char)
  | invalidVersionFormat
deriving DecidableEq

/-- Process exit status for each outcome: 0 on success, 1 on the controlled
    not-found exit, 1 for the interpreter's uncaught-exception termination. -/
def Outcome.exitCode : Outcome → Nat
  | .success _ => 0
  | .versionNotFound _ => 1
  | .invalidVersionFormat => 1

/-- The whole pipeline: strip and parse the version argument, search the
    document, and either print the section or report the failure.  The
    not-found diagnostic lists the first 20 generic version headings. -/
def runExtract (versionArg fileName text : List Char) : Outcome :=
  let raw := lstripV (pyStrip versionArg)
  match parseVersionRaw raw with
  | none => .invalidVersionFormat
  | some spec =>
    match findSection spec text with
    | none => .versionNotFound (notFoundMsg raw fileName ((findAll text).take 20))
    | some s => .success (s ++ ['\n'])

/-! ## Specification-side predicates

These express, in the words of the specification, what the patterns are
meant to recognise; the lemmas below relate them to the executable
matchers translated from the script. -/

/-- The version pattern of the specification: three dot-separated nonempty
    digit groups, optionally followed by a hyphen and a nonempty run of
    suffix characters. -/
def VersionShape (s : List Char) : Prop :=
  ∃ d1 d2 d3 : List Char,
    d1 ≠ [] ∧ (∀ c ∈ d1, c.isDigit = true) ∧
    d2 ≠ [] ∧ (∀ c ∈ d2, c.isDigit = true) ∧
    d3 ≠ [] ∧ (∀ c ∈ d3, c.isDigit = true) ∧
    (s = d1 ++ '.' :: d2 ++ '.' :: d3 ∨
      ∃ suf : List Char, suf ≠ [] ∧ (∀ c ∈ suf, isSuffixChar c = true) ∧
        s = d1 ++ '.' :: d2 ++ '.' :: d3 ++ '-' :: suf)

/-- Well-formedness of a base used in a heading pattern: nonempty and
    starting with a digit.  Every base produced by parseVersion satisfies
    this; it is what makes the greedy whitespace run before the base exact. -/
def wfBase : List Char → Bool
  | [] => false
  | c :: _ => c.isDigit

/-- Position k starts a line of l: it is position zero or the previous
    character is a newline. -/
def LineStartAt (l : List Char) (k : Nat) : Prop :=
  k = 0 ∨ l[k - 1]? = some '\n'

/-- Line-start relative to a scanning flag: position zero counts only when
    the flag says the scan begins at a line start. -/
def FlagLineStart (b : Bool) (l : List Char) (k : Nat) : Prop :=
  (k = 0 ∧ b = true) ∨ (0 < k ∧ l[k - 1]? = some '\n')

/-- Position j of l starts a heading line: a line start where the text goes
    on with two hash marks and a whitespace character. -/
def HeadingStartAt (l : List Char) (j : Nat) : Prop :=
  LineStartAt l j ∧ matchNextAt (l.drop j) = true

instance : DecidablePred (fun c : Char => c = '\n') := fun _ => inferInstance

instance (l : List Char) (k : Nat) : Decidable (LineStartAt l k) := by
  unfold LineStartAt; infer_instance

instance (b : Bool) (l : List Char) (k : Nat) : Decidable (FlagLineStart b l k) := by
  unfold FlagLineStart; infer_instance

instance (l : List Char) (j : Nat) : Decidable (HeadingStartAt l j) := by
  unfold HeadingStartAt; infer_instance

/-- A heading line satisfying the wildcard rule for a base with no requested
    suffix: two hash marks, whitespace, the base, optionally a hyphen and a
    nonempty suffix run, then whitespace or end of line. -/
def WildHeadingAt (base l : List Char) : Prop :=
  ∃ ws rest : List Char, ws ≠ [] ∧ (∀ c ∈ ws, isSpaceChar c = true) ∧
    ((l = '#' :: '#' :: (ws ++ base ++ rest) ∧ lookaheadOK rest = true) ∨
      ∃ suf : List Char, suf ≠ [] ∧ (∀ c ∈ suf, isSuffixChar c = true) ∧
        l = '#' :: '#' :: (ws ++ base ++ '-' :: suf ++ rest) ∧ lookaheadOK rest = true)

/-- A heading line satisfying the exact rule for a base with a requested
    suffix: two hash marks, whitespace, the base, a hyphen, the literal
    suffix, then whitespace or end of line. -/
def ExactHeadingAt (base suf l : List Char) : Prop :=
  ∃ ws rest : List Char, ws ≠ [] ∧ (∀ c ∈ ws, isSpaceChar c = true) ∧
    l = '#' :: '#' :: (ws ++ base ++ '-' :: suf ++ rest) ∧ lookaheadOK rest = true

/-! ## Concrete documents used by the claims -/

/-- The two-section document of the specification's first concrete example. -/
def docPair : List Char := "## 5.0.2\nbody1\n## 5.0.3\nbody2".toList

/-- The document with a pre-release heading before the plain heading. -/
def docBeta : List Char := "## 5.0.2-beta1\nbodyA\n## 5.0.2\nbodyB".toList

/-- A document whose matched heading line carries text after the version token. -/
def docTail : List Char := "## 5.0.2 extra\nbody".toList

/-- A document whose matched heading is the last heading. -/
def docLast : List Char := "## 1.2.3\nbody".toList

/-- A document with an empty section between two headings. -/
def docEmpty : List Char := "## 1.2.3\n## 1.2.4\nbody".toList

/-- A document with heading-line trailing text and an immediately following heading. -/
def docTailNext : List Char := "## 1.2.3 x\n## 1.2.4\ny".toList

/-! ## Sanity checks of the embedding on concrete inputs -/

example : parseVersion "5.0.2".toList = some ⟨"5.0.2".toList, none⟩ := by decide
example : parseVersion " v5.0.2-beta1 ".toList =
    some ⟨"5.0.2".toList, some "beta1".toList⟩ := by decide
example : parseVersion "vv5.0.2".toList = some ⟨"5.0.2".toList, none⟩ := by decide
example : parseVersion "V5.0.2".toList = none := by decide
example : parseVersion "5.0".toList = none := by decide
example : parseVersion "5.0.2-".toList = none := by decide
example : parseVersion "5.0.2-a b".toList = none := by decide
example : findSection ⟨"5.0.2".toList, none⟩ docPair = some "body1".toList := by decide
example : findSection ⟨"5.0.3".toList, none⟩ docPair = some "body2".toList := by decide
example : findSection ⟨"5.0.2".toList, none⟩ docBeta = some "bodyA".toList := by decide
example : findSection ⟨"5.0.2".toList, some "beta1".toList⟩ docBeta
    = some "bodyA".toList := by decide
example : findSection ⟨"5.0.2".toList, some "beta2".toList⟩ docBeta = none := by decide
example : findSection ⟨"5.0.2".toList, none⟩ docTail = some "extra\nbody".toList := by
  decide
example : findAll docBeta = ["5.0.2-beta1".toList, "5.0.2".toList] := by decide
example :
    runExtract "5.0.2-beta2".toList "CHANGELOG.md".toList docBeta
      = .versionNotFound
          "Version \"5.0.2-beta2\" not found in CHANGELOG.md.\nAvailable: 5.0.2-beta1, 5.0.2\n".toList := by
  decide

/-! ## Helper lemmas on lists and the scanners -/

theorem takeWhile_append_of_all {p : Char → Bool} {xs : List Char} {y : Char}
    {ys : List Char} (hxs : ∀ c ∈ xs, p c = true) (hy : p y = false) :
    (xs ++ y :: ys).takeWhile p = xs := by
  induction xs with
  | nil => simp [List.takeWhile_cons, hy]
  | cons a l ih =>
    have ha : p a = true := hxs a (by simp)
    simp only [List.cons_append, List.takeWhile_cons_of_pos ha]
    rw [ih (fun c hc => hxs c (by simp [hc]))]

theorem dropWhile_append_of_all {p : Char → Bool} {xs : List Char} {y : Char}
    {ys : List Char} (hxs : ∀ c ∈ xs, p c = true) (hy : p y = false) :
    (xs ++ y :: ys).dropWhile p = y :: ys := by
  induction xs with
  | nil => simp [List.dropWhile_cons, hy]
  | cons a l ih =>
    have ha : p a = true := hxs a (by simp)
    simp only [List.cons_append, List.dropWhile_cons_of_pos ha]
    exact ih (fun c hc => hxs c (by simp [hc]))

theorem takeWhile_append_nil {p : Char → Bool} {xs : List Char}
    (hxs : ∀ c ∈ xs, p c = true) : (xs ++ []).takeWhile p = xs := by
  induction xs with
  | nil => simp
  | cons a l ih =>
    have ha : p a = true := hxs a (by simp)
    simp only [List.cons_append, List.takeWhile_cons_of_pos ha]
    rw [ih (fun c hc => hxs c (by simp [hc]))]

theorem dropPre_eq_some {p l r : List Char} (h : dropPre p l = some r) :
    l = p ++ r := by
  induction p generalizing l with
  | nil => simpa [dropPre, eq_comm] using h.symm
  | cons a ps ih =>
    match l with
    | [] => simp [dropPre] at h
    | c :: cs =>
      by_cases hac : a = c
      · subst hac
        simp only [dropPre, if_pos rfl] at h
        simpa using ih h
      · simp [dropPre, hac] at h

theorem dropPre_append (p r : List Char) : dropPre p (p ++ r) = some r := by
  induction p with
  | nil => simp [dropPre]
  | cons a ps ih => simp [dropPre, ih]

theorem flagLineStart_succ (b : Bool) (c : Char) (t : List Char) (k : Nat) :
    FlagLineStart b (c :: t) (k + 1) ↔ FlagLineStart (c == '\n') t k := by
  cases k with
  | zero =>
    simp [FlagLineStart]
  | succ k =>
    simp [FlagLineStart]

theorem flagLineStart_true (l : List Char) (k : Nat) :
    FlagLineStart true l k ↔ LineStartAt l k := by
  cases k with
  | zero => simp [FlagLineStart, LineStartAt]
  | succ k => simp [FlagLineStart, LineStartAt]

theorem scanFirst_eq_some (M : List Char → Option Nat) :
    ∀ (l : List Char) (b : Bool) (i n : Nat), scanFirst M b l = some (i, n) →
      FlagLineStart b l i ∧ M (l.drop i) = some n ∧
        ∀ k, k < i → FlagLineStart b l k → M (l.drop k) = none := by
  intro l
  induction l with
  | nil =>
    intro b i n h
    cases b with
    | false => simp [scanFirst] at h
    | true =>
      cases hM : M [] with
      | none => simp [scanFirst, hM] at h
      | some m =>
        simp only [scanFirst, if_pos rfl, hM, Option.map_some, Option.some.injEq,
          Prod.mk.injEq] at h
        obtain ⟨rfl, rfl⟩ := h
        exact ⟨Or.inl ⟨rfl, rfl⟩, hM, fun k hk _ => absurd hk (Nat.not_lt_zero k)⟩
  | cons c t ih =>
    intro b i n h
    cases b with
    | true =>
      cases hM : M (c :: t) with
      | some m =>
        simp only [scanFirst, if_pos rfl, hM, Option.some.injEq, Prod.mk.injEq] at h
        obtain ⟨rfl, rfl⟩ := h
        exact ⟨Or.inl ⟨rfl, rfl⟩, hM, fun k hk _ => absurd hk (Nat.not_lt_zero k)⟩
      | none =>
        simp only [scanFirst, if_pos rfl, hM] at h
        cases hrec : scanFirst M (c == '\n') t with
        | none => rw [hrec] at h; simp at h
        | some p =>
          obtain ⟨i', n'⟩ := p
          rw [hrec] at h
          simp at h
          obtain ⟨rfl, rfl⟩ := h
          obtain ⟨hls, hMd, hmin⟩ := ih (c == '\n') i' n' hrec
          refine ⟨(flagLineStart_succ _ _ _ _).mpr hls, by simpa using hMd, ?_⟩
          intro k hk hfls
          cases k with
          | zero => simpa using hM
          | succ k' =>
            have hk' : k' < i' := by omega
            have := hmin k' hk' ((flagLineStart_succ _ _ _ _).mp hfls)
            simpa using this
    | false =>
      simp only [scanFirst, if_neg (by simp : ¬ (false = true))] at h
      cases hrec : scanFirst M (c == '\n') t with
      | none => rw [hrec] at h; simp at h
      | some p =>
        obtain ⟨i', n'⟩ := p
        rw [hrec] at h
        simp at h
        obtain ⟨rfl, rfl⟩ := h
        obtain ⟨hls, hMd, hmin⟩ := ih (c == '\n') i' n' hrec
        refine ⟨(flagLineStart_succ _ _ _ _).mpr hls, by simpa using hMd, ?_⟩
        intro k hk hfls
        cases k with
        | zero =>
          rcases hfls with ⟨_, hb⟩ | ⟨h0, _⟩
          · exact absurd hb (by simp)
          · exact absurd h0 (by omega)
        | succ k' =>
          have hk' : k' < i' := by omega
          have := hmin k' hk' ((flagLineStart_succ _ _ _ _).mp hfls)
          simpa using this

theorem scanFirst_eq_none (M : List Char → Option Nat) :
    ∀ (l : List Char) (b : Bool), scanFirst M b l = none →
      ∀ k, FlagLineStart b l k → M (l.drop k) = none := by
  intro l
  induction l with
  | nil =>
    intro b h k hfls
    rcases hfls with ⟨rfl, rfl⟩ | ⟨h0, hget⟩
    · cases hM : M [] with
      | none => simpa using hM
      | some m => rw [scanFirst, if_pos rfl, hM] at h; simp at h
    · simp at hget
  | cons c t ih =>
    intro b h k hfls
    cases b with
    | true =>
      cases hM : M (c :: t) with
      | some m => rw [scanFirst, if_pos rfl, hM] at h; simp at h
      | none =>
        rw [scanFirst, if_pos rfl, hM] at h
        have hrec : scanFirst M (c == '\n') t = none := by
          cases hrec : scanFirst M (c == '\n') t with
          | none => rfl
          | some p => rw [hrec] at h; simp at h
        cases k with
        | zero => simpa using hM
        | succ k' =>
          have := ih (c == '\n') hrec k' ((flagLineStart_succ _ _ _ _).mp hfls)
          simpa using this
    | false =>
      rw [scanFirst, if_neg (by simp : ¬ (false = true))] at h
      have hrec : scanFirst M (c == '\n') t = none := by
        cases hrec : scanFirst M (c == '\n') t with
        | none => rfl
        | some p => rw [hrec] at h; simp at h
      cases k with
      | zero =>
        rcases hfls with ⟨_, hb⟩ | ⟨h0, _⟩
        · exact absurd hb (by simp)
        · exact absurd h0 (by omega)
      | succ k' =>
        have := ih (c == '\n') hrec k' ((flagLineStart_succ _ _ _ _).mp hfls)
        simpa using this

theorem not_space_of_digit {c : Char} (h : c.isDigit = true) : isSpaceChar c = false := by
  simp only [Char.isDigit, Bool.and_eq_true, decide_eq_true_eq] at h
  simp only [isSpaceChar, Bool.or_eq_false_iff, beq_eq_false_iff_ne, ne_eq]
  refine ⟨⟨⟨⟨⟨?_, ?_⟩, ?_⟩, ?_⟩, ?_⟩, ?_⟩ <;> (rintro rfl; revert h; decide)

theorem not_suffixChar_of_space {c : Char} (h : isSpaceChar c = true) :
    isSuffixChar c = false := by
  simp only [isSpaceChar, Bool.or_eq_true, beq_iff_eq] at h
  rcases h with ((((rfl | rfl) | rfl) | rfl) | rfl) | rfl <;> decide

theorem not_space_of_suffixChar {c : Char} (h : isSuffixChar c = true) :
    isSpaceChar c = false := by
  cases hs : isSpaceChar c with
  | false => rfl
  | true => rw [not_suffixChar_of_space hs] at h; exact absurd h (by simp)

theorem suffixChar_of_digit {c : Char} (h : c.isDigit = true) : isSuffixChar c = true := by
  simp [isSuffixChar, h]

/-! ## Characterisation of the heading matchers -/

theorem matchHeader_wild_of_some {base l : List Char} {n : Nat}
    (h : matchHeaderAt ⟨base, none⟩ l = some n) : WildHeadingAt base l := by
  unfold matchHeaderAt at h
  split at h
  case h_2 => exact absurd h (by simp)
  case h_1 x rest =>
    simp only at h
    by_cases hws : (rest.takeWhile isSpaceChar).isEmpty
    · rw [if_pos hws] at h; exact absurd h (by simp)
    · rw [if_neg hws] at h
      cases hdp : dropPre base (rest.dropWhile isSpaceChar) with
      | none => rw [hdp] at h; exact absurd h (by simp)
      | some r2 =>
        rw [hdp] at h
        simp only at h
        have hrest : rest = rest.takeWhile isSpaceChar ++ (base ++ r2) := by
          rw [← dropPre_eq_some hdp, List.takeWhile_append_dropWhile]
        refine ⟨rest.takeWhile isSpaceChar, ?_⟩
        have hwsne : rest.takeWhile isSpaceChar ≠ [] := by
          simpa [List.isEmpty_iff] using hws
        have hwsall : ∀ c ∈ rest.takeWhile isSpaceChar, isSpaceChar c = true :=
          fun c hc => List.mem_takeWhile_imp hc
        by_cases hhd : r2.head? = some '-'
        · rw [if_pos hhd] at h
          obtain ⟨t, rfl⟩ : ∃ t, r2 = '-' :: t := by
            cases r2 with
            | nil => simp at hhd
            | cons a t => exact ⟨t, by simpa using congrArg (fun o => o.map (· :: t)) hhd⟩
          simp only [List.tail_cons] at h
          by_cases hrun : (t.takeWhile isSuffixChar).isEmpty
          · rw [if_pos hrun] at h; exact absurd h (by simp)
          · rw [if_neg hrun] at h
            by_cases hla : lookaheadOK (t.dropWhile isSuffixChar) = true
            · refine ⟨t.dropWhile isSuffixChar, hwsne, hwsall,
                Or.inr ⟨t.takeWhile isSuffixChar, by simpa [List.isEmpty_iff] using hrun,
                  fun c hc => List.mem_takeWhile_imp hc, ?_, hla⟩⟩
              have ht : t = t.takeWhile isSuffixChar ++ t.dropWhile isSuffixChar :=
                (List.takeWhile_append_dropWhile _ _).symm
              conv_lhs => rw [hrest, ht]
              simp [List.append_assoc]
            · rw [if_neg hla] at h; exact absurd h (by simp)
        · rw [if_neg hhd] at h
          by_cases hla : lookaheadOK r2 = true
          · exact ⟨r2, hwsne, hwsall, Or.inl ⟨by simpa using hrest, hla⟩⟩
          · rw [if_neg hla] at h; exact absurd h (by simp)

theorem dropWhile_append_nil {p : Char → Bool} {xs : List Char}
    (hxs : ∀ c ∈ xs, p c = true) : (xs ++ []).dropWhile p = [] := by
  induction xs with
  | nil => simp
  | cons a l ih =>
    have ha : p a = true := hxs a (by simp)
    simp only [List.cons_append, List.dropWhile_cons_of_pos ha]
    exact ih (fun c hc => hxs c (by simp [hc]))

theorem space_ne_dash {c : Char} (h : isSpaceChar c = true) : c ≠ '-' := by
  intro hcc
  subst hcc
  simp [isSpaceChar] at h

theorem lookahead_head_not_dash {rest : List Char} (hla : lookaheadOK rest = true) :
    ¬ rest.head? = some '-' := by
  cases rest with
  | nil => simp
  | cons c t =>
    simp only [lookaheadOK] at hla
    simpa using space_ne_dash hla

theorem matchHeader_wild_isSome {base l : List Char} (hwf : wfBase base = true)
    (hW : WildHeadingAt base l) : (matchHeaderAt ⟨base, none⟩ l).isSome = true := by
  obtain ⟨ws, rest, hwsne, hwsall, hcase⟩ := hW
  obtain ⟨b0, bt, rfl⟩ : ∃ b0 bt, base = b0 :: bt := by
    cases base with
    | nil => simp [wfBase] at hwf
    | cons a t => exact ⟨a, t, rfl⟩
  have hb0 : b0.isDigit = true := by simpa [wfBase] using hwf
  have hb0s : isSpaceChar b0 = false := not_space_of_digit hb0
  have hwsE : ¬ (ws.isEmpty = true) := by simpa [List.isEmpty_iff] using hwsne
  rcases hcase with ⟨rfl, hla⟩ | ⟨suf, hsufne, hsufall, rfl, hla⟩
  · have harr : ws ++ (b0 :: bt) ++ rest = ws ++ (b0 :: (bt ++ rest)) := by simp
    rw [harr]
    have htw : (ws ++ (b0 :: (bt ++ rest))).takeWhile isSpaceChar = ws :=
      takeWhile_append_of_all hwsall hb0s
    have hdw : (ws ++ (b0 :: (bt ++ rest))).dropWhile isSpaceChar = b0 :: (bt ++ rest) :=
      dropWhile_append_of_all hwsall hb0s
    have hdp : dropPre (b0 :: bt) (b0 :: (bt ++ rest)) = some rest := by
      simpa using dropPre_append (b0 :: bt) rest
    unfold matchHeaderAt
    simp only [htw, hdw, if_neg hwsE, hdp]
    simp only [if_neg (lookahead_head_not_dash hla), if_pos hla, Option.isSome_some]
  · have harr : ws ++ (b0 :: bt) ++ '-' :: suf ++ rest
        = ws ++ (b0 :: (bt ++ ('-' :: (suf ++ rest)))) := by simp
    rw [harr]
    have htw : (ws ++ (b0 :: (bt ++ ('-' :: (suf ++ rest))))).takeWhile isSpaceChar = ws :=
      takeWhile_append_of_all hwsall hb0s
    have hdw : (ws ++ (b0 :: (bt ++ ('-' :: (suf ++ rest))))).dropWhile isSpaceChar
        = b0 :: (bt ++ ('-' :: (suf ++ rest))) :=
      dropWhile_append_of_all hwsall hb0s
    have hdp : dropPre (b0 :: bt) (b0 :: (bt ++ ('-' :: (suf ++ rest))))
        = some ('-' :: (suf ++ rest)) := by
      simpa using dropPre_append (b0 :: bt) ('-' :: (suf ++ rest))
    have htw2 : (suf ++ rest).takeWhile isSuffixChar = suf := by
      cases rest with
      | nil => exact takeWhile_append_nil hsufall
      | cons c t =>
        have hc : isSuffixChar c = false := by
          simp only [lookaheadOK] at hla
          exact not_suffixChar_of_space hla
        exact takeWhile_append_of_all hsufall hc
    have hdw2 : (suf ++ rest).dropWhile isSuffixChar = rest := by
      cases rest with
      | nil => exact dropWhile_append_nil hsufall
      | cons c t =>
        have hc : isSuffixChar c = false := by
          simp only [lookaheadOK] at hla
          exact not_suffixChar_of_space hla
        exact dropWhile_append_of_all hsufall hc
    have hsufE : ¬ (suf.isEmpty = true) := by simpa [List.isEmpty_iff] using hsufne
    unfold matchHeaderAt
    simp only [htw, hdw, if_neg hwsE, hdp]
    simp [List.head?_cons, List.tail_cons, htw2, hdw2, if_neg hsufE, if_pos hla, hsufne]

theorem matchHeader_exact_of_some {base suf l : List Char} {n : Nat}
    (h : matchHeaderAt ⟨base, some suf⟩ l = some n) : ExactHeadingAt base suf l := by
  unfold matchHeaderAt at h
  split at h
  case h_2 => exact absurd h (by simp)
  case h_1 x rest =>
    simp only at h
    by_cases hws : (rest.takeWhile isSpaceChar).isEmpty
    · rw [if_pos hws] at h; exact absurd h (by simp)
    · rw [if_neg hws] at h
      cases hdp : dropPre base (rest.dropWhile isSpaceChar) with
      | none => rw [hdp] at h; exact absurd h (by simp)
      | some r2 =>
        rw [hdp] at h
        simp only at h
        cases hdp2 : dropPre ('-' :: suf) r2 with
        | none => rw [hdp2] at h; exact absurd h (by simp)
        | some r3 =>
          rw [hdp2] at h
          simp only at h
          by_cases hla : lookaheadOK r3 = true
          · have hrest : rest = rest.takeWhile isSpaceChar ++ (base ++ r2) := by
              rw [← dropPre_eq_some hdp, List.takeWhile_append_dropWhile]
            have hr2 : r2 = '-' :: suf ++ r3 := by
              simpa using dropPre_eq_some hdp2
            refine ⟨rest.takeWhile isSpaceChar, r3, by simpa [List.isEmpty_iff] using hws,
              fun c hc => List.mem_takeWhile_imp hc, ?_, hla⟩
            conv_lhs => rw [hrest, hr2]
            simp [List.append_assoc]
          · rw [if_neg hla] at h; exact absurd h (by simp)

theorem matchHeader_exact_isSome {base suf l : List Char} (hwf : wfBase base = true)
    (hE : ExactHeadingAt base suf l) : (matchHeaderAt ⟨base, some suf⟩ l).isSome = true := by
  obtain ⟨ws, rest, hwsne, hwsall, rfl, hla⟩ := hE
  obtain ⟨b0, bt, rfl⟩ : ∃ b0 bt, base = b0 :: bt := by
    cases base with
    | nil => simp [wfBase] at hwf
    | cons a t => exact ⟨a, t, rfl⟩
  have hb0 : b0.isDigit = true := by simpa [wfBase] using hwf
  have hb0s : isSpaceChar b0 = false := not_space_of_digit hb0
  have hwsE : ¬ (ws.isEmpty = true) := by simpa [List.isEmpty_iff] using hwsne
  have harr : ws ++ (b0 :: bt) ++ '-' :: suf ++ rest
      = ws ++ (b0 :: (bt ++ ('-' :: (suf ++ rest)))) := by simp
  rw [harr]
  have htw : (ws ++ (b0 :: (bt ++ ('-' :: (suf ++ rest))))).takeWhile isSpaceChar = ws :=
    takeWhile_append_of_all hwsall hb0s
  have hdw : (ws ++ (b0 :: (bt ++ ('-' :: (suf ++ rest))))).dropWhile isSpaceChar
      = b0 :: (bt ++ ('-' :: (suf ++ rest))) :=
    dropWhile_append_of_all hwsall hb0s
  have hdp : dropPre (b0 :: bt) (b0 :: (bt ++ ('-' :: (suf ++ rest))))
      = some ('-' :: (suf ++ rest)) := by
    simpa using dropPre_append (b0 :: bt) ('-' :: (suf ++ rest))
  have hdp2 : dropPre ('-' :: suf) ('-' :: (suf ++ rest)) = some rest := by
    simpa using dropPre_append ('-' :: suf) rest
  unfold matchHeaderAt
  simp only [htw, hdw, if_neg hwsE, hdp]
  simp only [hdp2, if_pos hla, Option.isSome_some]

/-! ## Characterisation of the version parser -/

theorem parseBase_shape {l b rest : List Char} (h : parseBase l = some (b, rest)) :
    l = b ++ rest ∧ ∃ d1 d2 d3 : List Char,
      d1 ≠ [] ∧ (∀ c ∈ d1, c.isDigit = true) ∧
      d2 ≠ [] ∧ (∀ c ∈ d2, c.isDigit = true) ∧
      d3 ≠ [] ∧ (∀ c ∈ d3, c.isDigit = true) ∧
      b = d1 ++ '.' :: d2 ++ '.' :: d3 := by
  unfold parseBase at h
  simp only at h
  by_cases h1 : (l.takeWhile Char.isDigit).isEmpty = true
  · rw [if_pos h1] at h; exact absurd h (by simp)
  rw [if_neg h1] at h
  by_cases hh1 : (l.dropWhile Char.isDigit).head? = some '.'
  swap
  · rw [if_neg hh1] at h; exact absurd h (by simp)
  rw [if_pos hh1] at h
  obtain ⟨r1, hr1⟩ : ∃ r1, l.dropWhile Char.isDigit = '.' :: r1 := by
    cases hd : l.dropWhile Char.isDigit with
    | nil => rw [hd] at hh1; simp at hh1
    | cons a t =>
      rw [hd] at hh1
      simp only [List.head?_cons, Option.some.injEq] at hh1
      exact ⟨t, by rw [hh1]⟩
  rw [hr1] at h
  simp only [List.tail_cons] at h
  by_cases h2 : (r1.takeWhile Char.isDigit).isEmpty = true
  · rw [if_pos h2] at h; exact absurd h (by simp)
  rw [if_neg h2] at h
  by_cases hh2 : (r1.dropWhile Char.isDigit).head? = some '.'
  swap
  · rw [if_neg hh2] at h; exact absurd h (by simp)
  rw [if_pos hh2] at h
  obtain ⟨r2, hr2⟩ : ∃ r2, r1.dropWhile Char.isDigit = '.' :: r2 := by
    cases hd : r1.dropWhile Char.isDigit with
    | nil => rw [hd] at hh2; simp at hh2
    | cons a t =>
      rw [hd] at hh2
      simp only [List.head?_cons, Option.some.injEq] at hh2
      exact ⟨t, by rw [hh2]⟩
  rw [hr2] at h
  simp only [List.tail_cons] at h
  by_cases h3 : (r2.takeWhile Char.isDigit).isEmpty = true
  · rw [if_pos h3] at h; exact absurd h (by simp)
  rw [if_neg h3] at h
  simp only [Option.some.injEq, Prod.mk.injEq] at h
  obtain ⟨hb, hrest⟩ := h
  have hl : l = l.takeWhile Char.isDigit ++ '.' :: r1 := by
    rw [← hr1, List.takeWhile_append_dropWhile]
  have hr1eq : r1 = r1.takeWhile Char.isDigit ++ '.' :: r2 := by
    rw [← hr2, List.takeWhile_append_dropWhile]
  have hr2eq : r2 = r2.takeWhile Char.isDigit ++ r2.dropWhile Char.isDigit :=
    (List.takeWhile_append_dropWhile _ _).symm
  refine ⟨?_, l.takeWhile Char.isDigit, r1.takeWhile Char.isDigit,
    r2.takeWhile Char.isDigit, by simpa [List.isEmpty_iff] using h1,
    fun c hc => List.mem_takeWhile_imp hc, by simpa [List.isEmpty_iff] using h2,
    fun c hc => List.mem_takeWhile_imp hc, by simpa [List.isEmpty_iff] using h3,
    fun c hc => List.mem_takeWhile_imp hc, hb.symm⟩
  rw [← hb, ← hrest]
  conv_lhs => rw [hl, hr1eq, hr2eq]
  simp [List.append_assoc]

theorem parseBase_complete {d1 d2 d3 r : List Char}
    (n1 : d1 ≠ []) (a1 : ∀ c ∈ d1, c.isDigit = true)
    (n2 : d2 ≠ []) (a2 : ∀ c ∈ d2, c.isDigit = true)
    (n3 : d3 ≠ []) (a3 : ∀ c ∈ d3, c.isDigit = true)
    (hr : r = [] ∨ ∃ c t, r = c :: t ∧ c.isDigit = false) :
    parseBase (d1 ++ '.' :: (d2 ++ '.' :: (d3 ++ r)))
      = some (d1 ++ '.' :: d2 ++ '.' :: d3, r) := by
  have hdot : ('.' : Char).isDigit = false := by decide
  have htw1 : (d1 ++ '.' :: (d2 ++ '.' :: (d3 ++ r))).takeWhile Char.isDigit = d1 :=
    takeWhile_append_of_all a1 hdot
  have hdw1 : (d1 ++ '.' :: (d2 ++ '.' :: (d3 ++ r))).dropWhile Char.isDigit
      = '.' :: (d2 ++ '.' :: (d3 ++ r)) :=
    dropWhile_append_of_all a1 hdot
  have htw2 : (d2 ++ '.' :: (d3 ++ r)).takeWhile Char.isDigit = d2 :=
    takeWhile_append_of_all a2 hdot
  have hdw2 : (d2 ++ '.' :: (d3 ++ r)).dropWhile Char.isDigit = '.' :: (d3 ++ r) :=
    dropWhile_append_of_all a2 hdot
  have htw3 : (d3 ++ r).takeWhile Char.isDigit = d3 := by
    rcases hr with rfl | ⟨c, t, rfl, hc⟩
    · exact takeWhile_append_nil a3
    · exact takeWhile_append_of_all a3 hc
  have hdw3 : (d3 ++ r).dropWhile Char.isDigit = r := by
    rcases hr with rfl | ⟨c, t, rfl, hc⟩
    · exact dropWhile_append_nil a3
    · exact dropWhile_append_of_all a3 hc
  have e1 : ¬ (d1.isEmpty = true) := by simpa [List.isEmpty_iff] using n1
  have e2 : ¬ (d2.isEmpty = true) := by simpa [List.isEmpty_iff] using n2
  have e3 : ¬ (d3.isEmpty = true) := by simpa [List.isEmpty_iff] using n3
  unfold parseBase
  simp only [htw1, hdw1, if_neg e1, List.head?_cons, if_pos rfl, List.tail_cons,
    htw2, hdw2, if_neg e2, htw3, hdw3, if_neg e3]
  simp

theorem parseVersionRaw_shape {raw : List Char} {spec : VersionSpec}
    (h : parseVersionRaw raw = some spec) : VersionShape raw := by
  unfold parseVersionRaw at h
  cases hpb : parseBase raw with
  | none => rw [hpb] at h; exact absurd h (by simp)
  | some p =>
    obtain ⟨b, rest⟩ := p
    rw [hpb] at h
    simp only at h
    obtain ⟨hsplit, d1, d2, d3, hn1, ha1, hn2, ha2, hn3, ha3, hb⟩ := parseBase_shape hpb
    by_cases he : rest.isEmpty = true
    · have : rest = [] := by simpa [List.isEmpty_iff] using he
      subst this
      refine ⟨d1, d2, d3, hn1, ha1, hn2, ha2, hn3, ha3, Or.inl ?_⟩
      rw [hsplit, hb]
      simp
    · rw [if_neg he] at h
      by_cases hh : rest.head? = some '-'
      swap
      · rw [if_neg hh] at h; exact absurd h (by simp)
      rw [if_pos hh] at h
      obtain ⟨t, rfl⟩ : ∃ t, rest = '-' :: t := by
        cases rest with
        | nil => simp at hh
        | cons a t =>
          simp only [List.head?_cons, Option.some.injEq] at hh
          exact ⟨t, by rw [hh]⟩
      simp only [List.tail_cons] at h
      by_cases hts : (!t.isEmpty && t.all isSuffixChar) = true
      · refine ⟨d1, d2, d3, hn1, ha1, hn2, ha2, hn3, ha3, Or.inr ⟨t, ?_, ?_, ?_⟩⟩
        · have := (Bool.and_eq_true _ _).mp hts
          simpa [List.isEmpty_iff] using this.1
        · intro c hc
          have := (Bool.and_eq_true _ _).mp hts
          exact (List.all_eq_true.mp this.2) c hc
        · rw [hsplit, hb]
      · rw [if_neg hts] at h; exact absurd h (by simp)

theorem parseVersionRaw_of_shape {s : List Char} (h : VersionShape s) :
    (parseVersionRaw s).isSome = true := by
  obtain ⟨d1, d2, d3, hn1, ha1, hn2, ha2, hn3, ha3, hcase⟩ := h
  rcases hcase with rfl | ⟨suf, hsn, hsa, rfl⟩
  · have hpb : parseBase (d1 ++ '.' :: (d2 ++ '.' :: (d3 ++ [])))
        = some (d1 ++ '.' :: d2 ++ '.' :: d3, []) :=
      parseBase_complete hn1 ha1 hn2 ha2 hn3 ha3 (Or.inl rfl)
    have harr : d1 ++ '.' :: d2 ++ '.' :: d3 = d1 ++ '.' :: (d2 ++ '.' :: (d3 ++ [])) := by
      simp
    rw [harr]
    unfold parseVersionRaw
    rw [hpb]
    simp
  · have hdash : ('-' : Char).isDigit = false := by decide
    have hpb : parseBase (d1 ++ '.' :: (d2 ++ '.' :: (d3 ++ '-' :: suf)))
        = some (d1 ++ '.' :: d2 ++ '.' :: d3, '-' :: suf) :=
      parseBase_complete hn1 ha1 hn2 ha2 hn3 ha3 (Or.inr ⟨'-', suf, rfl, hdash⟩)
    have harr : d1 ++ '.' :: d2 ++ '.' :: d3 ++ '-' :: suf
        = d1 ++ '.' :: (d2 ++ '.' :: (d3 ++ '-' :: suf)) := by
      simp [List.append_assoc]
    rw [harr]
    unfold parseVersionRaw
    rw [hpb]
    have hts : (!suf.isEmpty && suf.all isSuffixChar) = true := by
      refine (Bool.and_eq_true _ _).mpr ⟨?_, List.all_eq_true.mpr hsa⟩
      simpa [List.isEmpty_iff] using hsn
    simp [hts, List.isEmpty_iff, hsn]

theorem parseVersionRaw_base {raw : List Char} {spec : VersionSpec}
    (h : parseVersionRaw raw = some spec) : wfBase spec.base = true := by
  unfold parseVersionRaw at h
  cases hpb : parseBase raw with
  | none => rw [hpb] at h; exact absurd h (by simp)
  | some p =>
    obtain ⟨b, rest⟩ := p
    rw [hpb] at h
    simp only at h
    have hbase : spec.base = b := by
      by_cases he : rest.isEmpty = true
      · rw [if_pos he] at h
        cases h
        rfl
      · rw [if_neg he] at h
        by_cases hh : rest.head? = some '-'
        · rw [if_pos hh] at h
          by_cases hts : (!rest.tail.isEmpty && rest.tail.all isSuffixChar) = true
          · rw [if_pos hts] at h
            cases h
            rfl
          · rw [if_neg hts] at h; exact absurd h (by simp)
        · rw [if_neg hh] at h; exact absurd h (by simp)
    obtain ⟨-, d1, d2, d3, hn1, ha1, -, -, -, -, hb⟩ := parseBase_shape hpb
    obtain ⟨c0, d1', rfl⟩ : ∃ c0 d1', d1 = c0 :: d1' := by
      cases d1 with
      | nil => exact absurd rfl hn1
      | cons a t => exact ⟨a, t, rfl⟩
    have hc0 : c0.isDigit = true := ha1 c0 (by simp)
    rw [hbase, hb]
    simpa [wfBase] using hc0

theorem shape_head {s : List Char} (h : VersionShape s) :
    ∃ c t, s = c :: t ∧ c.isDigit = true := by
  obtain ⟨d1, d2, d3, hn1, ha1, _, _, _, _, hcase⟩ := h
  obtain ⟨c0, d1', rfl⟩ : ∃ c0 d1', d1 = c0 :: d1' := by
    cases d1 with
    | nil => exact absurd rfl hn1
    | cons a t => exact ⟨a, t, rfl⟩
  have hc0 : c0.isDigit = true := ha1 c0 (by simp)
  rcases hcase with rfl | ⟨suf, _, _, rfl⟩
  · exact ⟨c0, d1' ++ '.' :: d2 ++ '.' :: d3, by simp, hc0⟩
  · exact ⟨c0, d1' ++ '.' :: d2 ++ '.' :: d3 ++ '-' :: suf, by simp, hc0⟩

theorem shape_last {s : List Char} (h : VersionShape s) :
    ∃ xs c, s = xs ++ [c] ∧ isSpaceChar c = false := by
  obtain ⟨d1, d2, d3, hn1, ha1, hn2, ha2, hn3, ha3, hcase⟩ := h
  rcases hcase with rfl | ⟨suf, hsn, hsa, rfl⟩
  · obtain ⟨e, cl, rfl⟩ : ∃ e cl, d3 = e ++ [cl] := by
      rcases List.eq_nil_or_concat d3 with rfl | ⟨e, cl, rfl⟩
      · exact absurd rfl hn3
      · exact ⟨e, cl, by simp⟩
    have hcl : cl.isDigit = true := ha3 cl (by simp)
    exact ⟨d1 ++ '.' :: d2 ++ '.' :: e, cl, by simp, not_space_of_digit hcl⟩
  · obtain ⟨e, cl, rfl⟩ : ∃ e cl, suf = e ++ [cl] := by
      rcases List.eq_nil_or_concat suf with rfl | ⟨e, cl, rfl⟩
      · exact absurd rfl hsn
      · exact ⟨e, cl, by simp⟩
    have hcl : isSuffixChar cl = true := hsa cl (by simp)
    exact ⟨d1 ++ '.' :: d2 ++ '.' :: d3 ++ '-' :: e, cl, by simp,
      not_space_of_suffixChar hcl⟩

theorem shape_mem_dot {s : List Char} (h : VersionShape s) : '.' ∈ s := by
  obtain ⟨d1, d2, d3, _, _, _, _, _, _, hcase⟩ := h
  rcases hcase with rfl | ⟨suf, _, _, rfl⟩ <;> simp

theorem pyStripRight_concat (xs : List Char) {c : Char} (hc : isSpaceChar c = false) :
    pyStripRight (xs ++ [c]) = xs ++ [c] := by
  unfold pyStripRight
  have hrev : (xs ++ [c]).reverse = c :: xs.reverse := by simp
  rw [hrev, List.dropWhile_cons_of_neg (by simp [hc]), List.reverse_cons,
    List.reverse_reverse]

theorem shape_strip_id {s : List Char} (h : VersionShape s) :
    pyStrip s = s ∧ lstripV s = s ∧ pyStrip ('v' :: s) = 'v' :: s
      ∧ lstripV ('v' :: s) = s ∧ pyStrip ('V' :: s) = 'V' :: s
      ∧ lstripV ('V' :: s) = 'V' :: s := by
  obtain ⟨c0, t0, hs0, hc0⟩ := shape_head h
  obtain ⟨xs, cl, hsl, hcl⟩ := shape_last h
  have hleft : pyStripLeft s = s := by
    rw [hs0]
    exact List.dropWhile_cons_of_neg (by simp [not_space_of_digit hc0])
  have hright : pyStripRight s = s := by rw [hsl]; exact pyStripRight_concat xs hcl
  have hlv : lstripV s = s := by
    rw [hs0]
    refine List.dropWhile_cons_of_neg ?_
    simp only [beq_iff_eq]
    intro hv
    rw [hv] at hc0
    exact absurd hc0 (by decide)
  have hstrip : pyStrip s = s := by rw [pyStrip, hleft, hright]
  have hleftv : pyStripLeft ('v' :: s) = 'v' :: s :=
    List.dropWhile_cons_of_neg (by simp [isSpaceChar])
  have hrightv : pyStripRight ('v' :: s) = 'v' :: s := by
    rw [hsl]
    exact pyStripRight_concat ('v' :: xs) hcl
  have hleftV : pyStripLeft ('V' :: s) = 'V' :: s :=
    List.dropWhile_cons_of_neg (by simp [isSpaceChar])
  have hrightV : pyStripRight ('V' :: s) = 'V' :: s := by
    rw [hsl]
    exact pyStripRight_concat ('V' :: xs) hcl
  refine ⟨hstrip, hlv, ?_, ?_, ?_, ?_⟩
  · rw [pyStrip, hleftv, hrightv]
  · rw [lstripV, List.dropWhile_cons_of_pos (by simp)]
    exact hlv
  · rw [pyStrip, hleftV, hrightV]
  · exact List.dropWhile_cons_of_neg (by simp)

theorem parseVersionRaw_V {s : List Char} : parseVersionRaw ('V' :: s) = none := by
  unfold parseVersionRaw parseBase
  have htw : ('V' :: s).takeWhile Char.isDigit = [] :=
    List.takeWhile_cons_of_neg (by decide)
  simp [htw]

/-! ## The next-heading search and the generic findall scan -/

theorem headingStart_lt {l : List Char} {j : Nat} (h : HeadingStartAt l j) :
    j < l.length := by
  obtain ⟨-, hm⟩ := h
  by_contra hge
  have : l.drop j = [] := List.drop_eq_nil_of_le (by omega)
  rw [this] at hm
  exact absurd hm (by simp [matchNextAt])

theorem searchNext_some {l : List Char} {j : Nat} (h : searchNext l = some j) :
    HeadingStartAt l j ∧ ∀ k, k < j → ¬ HeadingStartAt l k := by
  unfold searchNext at h
  cases hs : scanFirst matchNextOpt true l with
  | none => rw [hs] at h; exact absurd h (by simp)
  | some p =>
    obtain ⟨i, n⟩ := p
    rw [hs] at h
    simp only [Option.map_some', Option.some.injEq] at h
    subst h
    obtain ⟨hfls, hM, hmin⟩ := scanFirst_eq_some matchNextOpt l true i n hs
    have hmt : matchNextAt (l.drop i) = true := by
      by_contra hf
      rw [matchNextOpt, if_neg hf] at hM
      exact absurd hM (by simp)
    refine ⟨⟨(flagLineStart_true l i).mp hfls, hmt⟩, ?_⟩
    intro k hk ⟨hls, hm⟩
    have := hmin k hk ((flagLineStart_true l k).mpr hls)
    rw [matchNextOpt, if_pos hm] at this
    exact absurd this (by simp)

theorem searchNext_none {l : List Char} (h : searchNext l = none) :
    ∀ k, ¬ HeadingStartAt l k := by
  unfold searchNext at h
  have hs : scanFirst matchNextOpt true l = none := by
    cases hs : scanFirst matchNextOpt true l with
    | none => rfl
    | some p => rw [hs] at h; simp at h
  intro k ⟨hls, hm⟩
  have := scanFirst_eq_none matchNextOpt l true hs k ((flagLineStart_true l k).mpr hls)
  rw [matchNextOpt, if_pos hm] at this
  exact absurd this (by simp)

theorem matchGeneric_shape {l cap : List Char} {n : Nat}
    (h : matchGenericAt l = some (cap, n)) : VersionShape cap := by
  unfold matchGenericAt at h
  split at h
  case h_2 => exact absurd h (by simp)
  case h_1 x rest =>
    simp only at h
    by_cases hws : (rest.takeWhile isSpaceChar).isEmpty = true
    · rw [if_pos hws] at h; exact absurd h (by simp)
    rw [if_neg hws] at h
    cases hpb : parseBase (rest.dropWhile isSpaceChar) with
    | none => rw [hpb] at h; exact absurd h (by simp)
    | some p =>
      obtain ⟨b, s3⟩ := p
      rw [hpb] at h
      simp only at h
      obtain ⟨-, d1, d2, d3, hn1, ha1, hn2, ha2, hn3, ha3, hb⟩ := parseBase_shape hpb
      have hshape_b : VersionShape b :=
        ⟨d1, d2, d3, hn1, ha1, hn2, ha2, hn3, ha3, Or.inl hb⟩
      by_cases hh : s3.head? = some '-'
      · rw [if_pos hh] at h
        by_cases hrun : (s3.tail.takeWhile isSuffixChar).isEmpty = true
        · rw [if_pos hrun] at h
          simp only [Option.some.injEq, Prod.mk.injEq] at h
          rw [← h.1]
          exact hshape_b
        · rw [if_neg hrun] at h
          simp only [Option.some.injEq, Prod.mk.injEq] at h
          rw [← h.1]
          refine ⟨d1, d2, d3, hn1, ha1, hn2, ha2, hn3, ha3,
            Or.inr ⟨s3.tail.takeWhile isSuffixChar,
              by simpa [List.isEmpty_iff] using hrun,
              fun c hc => List.mem_takeWhile_imp hc, ?_⟩⟩
          rw [hb]
      · rw [if_neg hh] at h
        simp only [Option.some.injEq, Prod.mk.injEq] at h
        rw [← h.1]
        exact hshape_b

theorem findAllAux_shape :
    ∀ (fuel : Nat) (b : Bool) (l : List Char), ∀ v ∈ findAllAux fuel b l, VersionShape v := by
  intro fuel
  induction fuel with
  | zero => intro b l v hv; simp [findAllAux] at hv
  | succ f ih =>
    intro b l v hv
    unfold findAllAux at hv
    cases b with
    | true =>
      cases hm : matchGenericAt l with
      | some p =>
        obtain ⟨cap, n⟩ := p
        rw [if_pos rfl, hm] at hv
        simp only [Option.elim_some, List.mem_cons] at hv
        rcases hv with rfl | hv
        · exact matchGeneric_shape hm
        · exact ih _ _ v hv
      | none =>
        rw [if_pos rfl, hm] at hv
        simp only [Option.elim_none] at hv
        cases l with
        | nil => simp at hv
        | cons c t => exact ih _ _ v hv
    | false =>
      rw [if_neg (by simp : ¬ (false = true))] at hv
      simp only [Option.elim_none] at hv
      cases l with
      | nil => simp at hv
      | cons c t => exact ih _ _ v hv

theorem findAll_shape {text : List Char} : ∀ v ∈ findAll text, VersionShape v :=
  findAllAux_shape _ _ _

/-! ## Claims -/

/-- C1 counterexample: the claim says the section starts at the first character
    after the matched heading line, so text on the heading line after the
    version token would be excluded and the result on docTail would be the
    trimmed string body.  The code starts the slice at the match end, right
    after the version token, so the heading-line tail extra is included and the
    result is the string extra-newline-body, not body. -/
theorem claim_C1_counterexample :
    findSection ⟨"5.0.2".toList, none⟩ docTail = some "extra\nbody".toList ∧
      "extra\nbody".toList ≠ "body".toList := by
  decide

/-- C1 (amended): for every successfully matched heading, the section starts at
    the first character after the matched version token (the match end, which
    may be mid-line), and ends at the start of the first line beginning with two
    hash marks and whitespace within the remainder, or at the end of the
    document when no such line exists; the result is that slice with
    surrounding whitespace stripped. -/
theorem claim_C1 (spec : VersionSpec) (text : List Char) (i n : Nat)
    (h : searchHeader spec text = some (i, n)) :
    ∃ e, e ≤ (text.drop (i + n)).length ∧
      findSection spec text = some (pyStrip ((text.drop (i + n)).take e)) ∧
      ((HeadingStartAt (text.drop (i + n)) e ∧
          ∀ j, j < e → ¬ HeadingStartAt (text.drop (i + n)) j) ∨
        (e = (text.drop (i + n)).length ∧ ∀ j, ¬ HeadingStartAt (text.drop (i + n)) j)) := by
  cases hsn : searchNext (text.drop (i + n)) with
  | some j =>
    obtain ⟨hhs, hmin⟩ := searchNext_some hsn
    refine ⟨j, le_of_lt (headingStart_lt hhs), ?_, Or.inl ⟨hhs, hmin⟩⟩
    unfold findSection
    rw [h]
    simp only [hsn]
  | none =>
    refine ⟨(text.drop (i + n)).length, le_refl _, ?_,
      Or.inr ⟨rfl, searchNext_none hsn⟩⟩
    unfold findSection
    rw [h]
    simp only [hsn]

/-- C1 witness: the sectioning property evaluated on docTail. -/
theorem claim_C1_witness :
    searchHeader ⟨"5.0.2".toList, none⟩ docTail = some (0, 8) ∧
      (∃ e, e ≤ (docTail.drop (0 + 8)).length ∧
        findSection ⟨"5.0.2".toList, none⟩ docTail
          = some (pyStrip ((docTail.drop (0 + 8)).take e)) ∧
        ((HeadingStartAt (docTail.drop (0 + 8)) e ∧
            ∀ j, j < e → ¬ HeadingStartAt (docTail.drop (0 + 8)) j) ∨
          (e = (docTail.drop (0 + 8)).length ∧
            ∀ j, ¬ HeadingStartAt (docTail.drop (0 + 8)) j))) :=
  ⟨by decide, claim_C1 ⟨"5.0.2".toList, none⟩ docTail 0 8 (by decide)⟩

/-- C2 counterexample: the claim says a string with more than one leading v,
    such as vv5.0.2, must fail; the code strips every leading lowercase v, so
    parseVersion accepts it. -/
theorem claim_C2_counterexample :
    parseVersion "vv5.0.2".toList = some ⟨"5.0.2".toList, none⟩ ∧
      ¬ parseVersion "vv5.0.2".toList = none := by
  decide

/-- C2 (amended): for every string that, after stripping surrounding whitespace
    and every leading lowercase v, does not match the version pattern,
    parseVersion fails and the run reports the invalid-version error. -/
theorem claim_C2 (s : List Char) (h : ¬ VersionShape (lstripV (pyStrip s))) :
    parseVersion s = none ∧
      ∀ fileName text, runExtract s fileName text = Outcome.invalidVersionFormat := by
  have hp : parseVersionRaw (lstripV (pyStrip s)) = none := by
    cases hp : parseVersionRaw (lstripV (pyStrip s)) with
    | none => rfl
    | some spec => exact absurd (parseVersionRaw_shape hp) h
  constructor
  · exact hp
  · intro fileName text
    unfold runExtract
    simp only [hp]

/-- C2 witness: the amended failure property evaluated on the string x. -/
theorem claim_C2_witness :
    parseVersion "x".toList = none ∧
      runExtract "x".toList "CHANGELOG.md".toList [] = Outcome.invalidVersionFormat := by
  have hns : ¬ VersionShape (lstripV (pyStrip "x".toList)) :=
    fun hs => absurd (shape_mem_dot hs) (by decide)
  exact ⟨(claim_C2 "x".toList hns).1, (claim_C2 "x".toList hns).2 _ _⟩

/-- C3 counterexample: the claim says a single leading uppercase V is stripped
    as well, so V5.0.2 would parse; the code only strips lowercase v, and
    parseVersion rejects V5.0.2 while accepting the bare 5.0.2. -/
theorem claim_C3_counterexample :
    parseVersion "5.0.2".toList = some ⟨"5.0.2".toList, none⟩ ∧
      parseVersion "V5.0.2".toList = none := by
  decide

/-- C3 (amended): parseVersion strips surrounding whitespace and every leading
    lowercase v; for every string matching the version pattern, prefixing a
    lowercase v yields the same successful parse, while prefixing an uppercase
    V makes the parse fail. -/
theorem claim_C3 (s : List Char) (h : VersionShape s) :
    parseVersion ('v' :: s) = parseVersion s ∧ (parseVersion s).isSome = true ∧
      parseVersion ('V' :: s) = none := by
  obtain ⟨hstrip, hlv, hstripv, hlvv, hstripV, hlvV⟩ := shape_strip_id h
  have h1 : parseVersion s = parseVersionRaw s := by
    unfold parseVersion
    rw [hstrip, hlv]
  have h2 : parseVersion ('v' :: s) = parseVersionRaw s := by
    unfold parseVersion
    rw [hstripv, hlvv]
  have h3 : parseVersion ('V' :: s) = none := by
    unfold parseVersion
    rw [hstripV, hlvV]
    exact parseVersionRaw_V
  refine ⟨by rw [h1, h2], ?_, h3⟩
  rw [h1]
  exact parseVersionRaw_of_shape h

/-- C3 witness: the prefix property evaluated on the version 5.0.2. -/
theorem claim_C3_witness :
    parseVersion ('v' :: "5.0.2".toList) = parseVersion "5.0.2".toList ∧
      (parseVersion "5.0.2".toList).isSome = true ∧
      parseVersion ('V' :: "5.0.2".toList) = none :=
  claim_C3 "5.0.2".toList
    ⟨['5'], ['0'], ['2'], by decide, by decide, by decide, by decide, by decide,
      by decide, Or.inl (by decide)⟩

/-- C4 (confirmed): with no requested suffix, the search finds the first
    line, scanning top to bottom, that satisfies the wildcard heading rule
    (two hash marks, whitespace, the base, an optional hyphen-suffix run,
    then whitespace or end of line), and no earlier line start satisfies it;
    in particular on docBeta requesting 5.0.2 returns bodyA. -/
theorem claim_C4 :
    (∀ (base text : List Char) (i n : Nat), wfBase base = true →
        searchHeader ⟨base, none⟩ text = some (i, n) →
        LineStartAt text i ∧ WildHeadingAt base (text.drop i) ∧
          ∀ k, k < i → LineStartAt text k → ¬ WildHeadingAt base (text.drop k))
    ∧ findSection ⟨"5.0.2".toList, none⟩ docBeta = some "bodyA".toList := by
  constructor
  · intro base text i n hwf h
    unfold searchHeader at h
    obtain ⟨hfls, hM, hmin⟩ :=
      scanFirst_eq_some (matchHeaderAt ⟨base, none⟩) text true i n h
    refine ⟨(flagLineStart_true text i).mp hfls, matchHeader_wild_of_some hM, ?_⟩
    intro k hk hls hW
    have hnone := hmin k hk ((flagLineStart_true text k).mpr hls)
    have hs := matchHeader_wild_isSome hwf hW
    rw [hnone] at hs
    exact absurd hs (by simp)
  · decide

/-- C4 witness: the wildcard first-match property evaluated on docBeta. -/
theorem claim_C4_witness :
    wfBase "5.0.2".toList = true ∧
      searchHeader ⟨"5.0.2".toList, none⟩ docBeta = some (0, 14) ∧
      (LineStartAt docBeta 0 ∧ WildHeadingAt "5.0.2".toList (docBeta.drop 0) ∧
        ∀ k, k < 0 → LineStartAt docBeta k →
          ¬ WildHeadingAt "5.0.2".toList (docBeta.drop k)) :=
  ⟨by decide, by decide,
    claim_C4.1 "5.0.2".toList docBeta 0 14 (by decide) (by decide)⟩

/-- C5 (confirmed): with an explicit requested suffix, a found heading
    satisfies the exact rule (two hash marks, whitespace, base, hyphen, the
    literal suffix, then whitespace or end of line) at the first such line;
    when no heading matches, the run reports the not-found outcome and no line
    start of the document satisfies the exact rule; on docBeta, requesting
    5.0.2-beta1 returns bodyA and requesting 5.0.2-beta2 yields the not-found
    diagnostic. -/
theorem claim_C5 :
    (∀ (base suf text : List Char) (i n : Nat), wfBase base = true →
        searchHeader ⟨base, some suf⟩ text = some (i, n) →
        LineStartAt text i ∧ ExactHeadingAt base suf (text.drop i) ∧
          ∀ k, k < i → LineStartAt text k → ¬ ExactHeadingAt base suf (text.drop k))
    ∧ (∀ (versionArg fileName text : List Char) (spec : VersionSpec) (suf : List Char),
        parseVersion versionArg = some spec → spec.suffix = some suf →
        searchHeader spec text = none →
        runExtract versionArg fileName text
            = Outcome.versionNotFound (notFoundMsg (lstripV (pyStrip versionArg)) fileName
                ((findAll text).take 20)) ∧
          ∀ k, LineStartAt text k → ¬ ExactHeadingAt spec.base suf (text.drop k))
    ∧ findSection ⟨"5.0.2".toList, some "beta1".toList⟩ docBeta = some "bodyA".toList
    ∧ runExtract "5.0.2-beta2".toList "CHANGELOG.md".toList docBeta
        = Outcome.versionNotFound
            "Version \"5.0.2-beta2\" not found in CHANGELOG.md.\nAvailable: 5.0.2-beta1, 5.0.2\n".toList := by
  refine ⟨?_, ?_, by decide, by decide⟩
  · intro base suf text i n hwf h
    unfold searchHeader at h
    obtain ⟨hfls, hM, hmin⟩ :=
      scanFirst_eq_some (matchHeaderAt ⟨base, some suf⟩) text true i n h
    refine ⟨(flagLineStart_true text i).mp hfls, matchHeader_exact_of_some hM, ?_⟩
    intro k hk hls hE
    have hnone := hmin k hk ((flagLineStart_true text k).mpr hls)
    have hs := matchHeader_exact_isSome hwf hE
    rw [hnone] at hs
    exact absurd hs (by simp)
  · intro versionArg fileName text spec suf hparse hsuf hsearch
    have hparse' : parseVersionRaw (lstripV (pyStrip versionArg)) = some spec := hparse
    have hwf : wfBase spec.base = true := parseVersionRaw_base hparse'
    have hfs : findSection spec text = none := by
      unfold findSection
      rw [hsearch]
    constructor
    · unfold runExtract
      simp only [hparse', hfs]
    · intro k hls hE
      obtain ⟨b, sfx⟩ := spec
      simp only at hsuf hE
      subst hsuf
      unfold searchHeader at hsearch
      have hnone := scanFirst_eq_none (matchHeaderAt ⟨b, some suf⟩) text true hsearch k
        ((flagLineStart_true text k).mpr hls)
      have hs := matchHeader_exact_isSome (by simpa using hwf) hE
      rw [hnone] at hs
      exact absurd hs (by simp)

/-- C5 witness: the exact-suffix failure property evaluated on docBeta with
    the absent suffix beta2. -/
theorem claim_C5_witness :
    (runExtract "5.0.2-beta2".toList "CHANGELOG.md".toList docBeta
        = Outcome.versionNotFound (notFoundMsg (lstripV (pyStrip "5.0.2-beta2".toList))
            "CHANGELOG.md".toList ((findAll docBeta).take 20))) ∧
      ∀ k, LineStartAt docBeta k →
        ¬ ExactHeadingAt (VersionSpec.mk "5.0.2".toList (some "beta2".toList)).base
            "beta2".toList (docBeta.drop k) :=
  claim_C5.2.1 "5.0.2-beta2".toList "CHANGELOG.md".toList docBeta
    ⟨"5.0.2".toList, some "beta2".toList⟩ "beta2".toList (by decide) rfl (by decide)

/-- C6 (confirmed): on the two-section document, requesting 5.0.2 returns
    body1 and requesting 5.0.3 returns body2, each trimmed. -/
theorem claim_C6 :
    findSection ⟨"5.0.2".toList, none⟩ docPair = some "body1".toList ∧
      findSection ⟨"5.0.3".toList, none⟩ docPair = some "body2".toList := by
  decide

/-- C7 (confirmed): when no position in the remainder after the match starts a
    heading line (the matched heading is the last one), the returned section is
    the whole remainder of the document, trimmed. -/
theorem claim_C7 (spec : VersionSpec) (text : List Char) (i n : Nat)
    (h : searchHeader spec text = some (i, n))
    (hlast : ∀ j, j < (text.drop (i + n)).length →
      ¬ HeadingStartAt (text.drop (i + n)) j) :
    findSection spec text = some (pyStrip (text.drop (i + n))) := by
  cases hsn : searchNext (text.drop (i + n)) with
  | some j =>
    obtain ⟨hhs, -⟩ := searchNext_some hsn
    exact absurd hhs (hlast j (headingStart_lt hhs))
  | none =>
    unfold findSection
    rw [h]
    simp only [hsn]
    rw [List.take_length]

/-- C7 witness: the last-heading property evaluated on docLast. -/
theorem claim_C7_witness :
    findSection ⟨"1.2.3".toList, none⟩ docLast = some (pyStrip (docLast.drop (0 + 8))) :=
  claim_C7 ⟨"1.2.3".toList, none⟩ docLast 0 8 (by decide) (by decide)

/-- C8 (confirmed): when the version parses but no heading matches, the run
    produces the not-found outcome whose diagnostic is built from the first 20
    generic version headings of the document, listed in document order (a
    front segment of the full scan), every listed heading matches the generic
    version pattern, and the exit status is nonzero. -/
theorem claim_C8 (versionArg fileName text : List Char) (spec : VersionSpec)
    (hparse : parseVersion versionArg = some spec)
    (hsearch : searchHeader spec text = none) :
    runExtract versionArg fileName text
        = Outcome.versionNotFound (notFoundMsg (lstripV (pyStrip versionArg)) fileName
            ((findAll text).take 20))
      ∧ (runExtract versionArg fileName text).exitCode ≠ 0
      ∧ ((findAll text).take 20).length ≤ 20
      ∧ (∃ rem, findAll text = (findAll text).take 20 ++ rem)
      ∧ ∀ v ∈ findAll text, VersionShape v := by
  have hparse' : parseVersionRaw (lstripV (pyStrip versionArg)) = some spec := hparse
  have hfs : findSection spec text = none := by
    unfold findSection
    rw [hsearch]
  have hrun : runExtract versionArg fileName text
      = Outcome.versionNotFound (notFoundMsg (lstripV (pyStrip versionArg)) fileName
          ((findAll text).take 20)) := by
    unfold runExtract
    simp only [hparse', hfs]
  refine ⟨hrun, ?_, List.length_take_le _ _,
    ⟨(findAll text).drop 20, (List.take_append_drop _ _).symm⟩,
    fun v hv => findAll_shape v hv⟩
  rw [hrun]
  simp [Outcome.exitCode]

/-- C8 witness: the not-found diagnostic evaluated on docBeta with the absent
    version 9.9.9. -/
theorem claim_C8_witness :
    runExtract "9.9.9".toList "CHANGELOG.md".toList docBeta
        = Outcome.versionNotFound (notFoundMsg (lstripV (pyStrip "9.9.9".toList))
            "CHANGELOG.md".toList ((findAll docBeta).take 20))
      ∧ (runExtract "9.9.9".toList "CHANGELOG.md".toList docBeta).exitCode ≠ 0
      ∧ ((findAll docBeta).take 20).length ≤ 20
      ∧ (∃ rem, findAll docBeta = (findAll docBeta).take 20 ++ rem)
      ∧ ∀ v ∈ findAll docBeta, VersionShape v :=
  claim_C8 "9.9.9".toList "CHANGELOG.md".toList docBeta ⟨"9.9.9".toList, none⟩
    (by decide) (by decide)

/-- C9 (confirmed): the whole pipeline is a pure function of the version
    argument, the file name and the document text, so two runs on equal inputs
    produce identical outcomes, covering the printed section, the error
    diagnostic and the exit status. -/
theorem claim_C9 (v1 f1 t1 v2 f2 t2 : List Char) (hv : v1 = v2) (hf : f1 = f2)
    (ht : t1 = t2) :
    runExtract v1 f1 t1 = runExtract v2 f2 t2
      ∧ (runExtract v1 f1 t1).exitCode = (runExtract v2 f2 t2).exitCode := by
  subst hv
  subst hf
  subst ht
  exact ⟨rfl, rfl⟩

/-- C9 witness: determinism evaluated on the two-section document. -/
theorem claim_C9_witness :
    runExtract "5.0.2".toList "CHANGELOG.md".toList docPair
        = runExtract "5.0.2".toList "CHANGELOG.md".toList docPair
      ∧ (runExtract "5.0.2".toList "CHANGELOG.md".toList docPair).exitCode
        = (runExtract "5.0.2".toList "CHANGELOG.md".toList docPair).exitCode :=
  claim_C9 "5.0.2".toList "CHANGELOG.md".toList docPair
    "5.0.2".toList "CHANGELOG.md".toList docPair rfl rfl rfl

/-- C10 counterexample: the claim says that whenever the matched heading line
    is immediately followed by another heading line the result is the empty
    string; on docTailNext the matched heading line carries the trailing text
    x and is immediately followed by a heading line (position 11 starts a
    heading line, right after the newline at position 10), yet findSection
    returns x, not the empty string. -/
theorem claim_C10_counterexample :
    searchHeader ⟨"1.2.3".toList, none⟩ docTailNext = some (0, 8) ∧
      docTailNext[10]? = some '\n' ∧
      HeadingStartAt docTailNext 11 ∧
      findSection ⟨"1.2.3".toList, none⟩ docTailNext = some "x".toList ∧
      "x".toList ≠ ([] : List Char) := by
  decide

/-- C10 (amended): when the matched version token is immediately followed by a
    newline and the next line begins with two hash marks and whitespace (an
    empty section), findSection succeeds and returns the empty string rather
    than failing. -/
theorem claim_C10 (spec : VersionSpec) (text : List Char) (i n : Nat)
    (rest : List Char) (h : searchHeader spec text = some (i, n))
    (hnl : text.drop (i + n) = '\n' :: rest) (hnext : matchNextAt rest = true) :
    findSection spec text = some [] := by
  have hsn : searchNext ('\n' :: rest) = some 1 := by
    cases rest with
    | nil => exact absurd hnext (by simp [matchNextAt])
    | cons c t =>
      unfold searchNext
      rw [scanFirst, if_pos rfl]
      rw [show matchNextOpt ('\n' :: c :: t) = none from by
        rw [matchNextOpt, if_neg (by simp [matchNextAt])]]
      simp only
      rw [show (('\n' : Char) == '\n') = true from rfl]
      rw [scanFirst, if_pos rfl]
      rw [show matchNextOpt (c :: t) = some 0 from by rw [matchNextOpt, if_pos hnext]]
      rfl
  unfold findSection
  rw [h]
  simp only [hnl, hsn]
  rfl

/-- C10 witness: the empty-section property evaluated on docEmpty. -/
theorem claim_C10_witness :
    findSection ⟨"1.2.3".toList, none⟩ docEmpty = some [] :=
  claim_C10 ⟨"1.2.3".toList, none⟩ docEmpty 0 8 "## 1.2.4\nbody".toList
    (by decide) (by decide) (by decide)

end Changelog
